import Mathlib

/-!
A verification development of the expression / control-flow mini-language
implemented in devassistant lang.py.

Modelling conventions:
* Python strings are lists of characters (`PyStr`).
* The dynamically typed values that can live in the variable environment
  are a tagged variant `Value` (text, bool, list, insertion-ordered dict).
* The variable environment `kwargs` is an insertion-ordered association
  list; writing to an existing key updates it in place.
* The external command runner (`command.Command(...).run()`) is a function
  parameter: `.ok out` models a successful run returning `out`, `.error out`
  models a raised `RunException` carrying `ex.output = out`.
* Raised Python exceptions are the explicit error side of `Except`;
  `PyError` distinguishes the exception classes that the module can raise
  (`YamlSyntaxError`, plus `AttributeError` / `NameError` / `ValueError` /
  `TypeError` for the runtime faults Python itself produces).
-/

set_option autoImplicit false

namespace DevAssistant

/-- Python strings are modelled as lists of characters. -/
abbrev PyStr := List Char

/-- Embed a Lean string literal into the character-list model. -/
def pys (s : String) : PyStr := s.data

/-- The single-quote character (written numerically). -/
def squote : Char := Char.ofNat 39

/-- The double-quote character. -/
def dquote : Char := Char.ofNat 34

/-- The opening curly-brace character. -/
def lbrace : Char := Char.ofNat 123

/-- The closing curly-brace character. -/
def rbrace : Char := Char.ofNat 125

/-- The newline character. -/
def nlChar : Char := Char.ofNat 10

/-- The characters Python `str.strip()` and the regex class `\s` treat as
whitespace (ASCII range, which covers all inputs of this language). -/
def pyIsSpace (c : Char) : Bool :=
  (c == ' ') || (c == Char.ofNat 9) || (c == nlChar) || (c == Char.ofNat 13) ||
  (c == Char.ofNat 11) || (c == Char.ofNat 12)

/-- The characters stripped by Python `str.strip('"\\'')`. -/
def isQuote (c : Char) : Bool := (c == dquote) || (c == squote)

/-- The characters stripped by Python `str.strip('{}')`. -/
def isBrace (c : Char) : Bool := (c == lbrace) || (c == rbrace)

/-- Identifier characters: letters, digits, underscore. -/
def isAlnumU (c : Char) : Bool := c.isAlphanum || (c == '_')

/-- `dropWhileC p s` drops the longest prefix of characters satisfying `p`. -/
def dropWhileC (p : Char → Bool) : PyStr → PyStr
  | [] => []
  | c :: r => if p c then dropWhileC p r else c :: r

/-- `takeWhileC p s` takes the longest prefix of characters satisfying `p`. -/
def takeWhileC (p : Char → Bool) : PyStr → PyStr
  | [] => []
  | c :: r => if p c then c :: takeWhileC p r else []

/-- Python `str.lstrip` restricted to a character class. -/
def lstripC (p : Char → Bool) (s : PyStr) : PyStr := dropWhileC p s

/-- Python `str.rstrip` restricted to a character class. -/
def rstripC (p : Char → Bool) (s : PyStr) : PyStr := (dropWhileC p s.reverse).reverse

/-- Python `str.strip(chars)`: remove all leading and trailing characters
of the class `p`, each side independently. -/
def pystrip (p : Char → Bool) (s : PyStr) : PyStr := rstripC p (lstripC p s)

/-- Python `str.strip()` with no arguments (whitespace). -/
def stripWs (s : PyStr) : PyStr := pystrip pyIsSpace s

/-- Python `str.startswith`. -/
def pyStartswith : PyStr → PyStr → Bool
  | _, [] => true
  | [], _ :: _ => false
  | c :: s, p :: ps => (c == p) && pyStartswith s ps

/-- Python `str.count` for a single-character needle. -/
def countChar (ch : Char) (s : PyStr) : Nat := (s.filter (fun c => c == ch)).length

/-- Python `str.split(sep)` for a single-character separator
(keeps empty fields). -/
def splitChar (sep : Char) : PyStr → List PyStr
  | [] => [[]]
  | c :: r =>
    match splitChar sep r with
    | [] => [[]]
    | w :: ws => if c = sep then [] :: w :: ws else (c :: w) :: ws

/-- Helper for `pySplitWs`: accumulates the current word reversed. -/
def splitWsAux : PyStr → PyStr → List PyStr
  | [], acc => if acc.isEmpty then [] else [acc.reverse]
  | c :: r, acc =>
    if pyIsSpace c then
      if acc.isEmpty then splitWsAux r [] else acc.reverse :: splitWsAux r []
    else splitWsAux r (c :: acc)

/-- Python `str.split()` with no arguments: split on whitespace runs,
discarding empty fields. -/
def pySplitWs (s : PyStr) : List PyStr := splitWsAux s []

/-- The dynamically typed values of the language: text, booleans, lists
and insertion-ordered dicts (the arbitrary structures prior evaluations
may have stored in the environment). -/
inductive Value where
  | str (s : PyStr)
  | bool (b : Bool)
  | list (xs : List Value)
  | dict (xs : List (PyStr × Value))

/-- Python truthiness of a `Value` (empty / False-like values are falsy). -/
def Value.truthy : Value → Bool
  | .str s => !s.isEmpty
  | .bool b => b
  | .list xs => !xs.isEmpty
  | .dict xs => !xs.isEmpty

/-- Python `str(type(v))`, used in one error message. -/
def pyTypeName : Value → PyStr
  | .str _ => pys "<class str>"
  | .bool _ => pys "<class bool>"
  | .list _ => pys "<class list>"
  | .dict _ => pys "<class dict>"

/-- The variable environment: an insertion-ordered association list. -/
abbrev Env := List (PyStr × Value)

/-- Dictionary lookup. -/
def envGet : Env → PyStr → Option Value
  | [], _ => none
  | (k, v) :: r, n => if k = n then some v else envGet r n

/-- Python `name in kwargs`. -/
def envContains (e : Env) (n : PyStr) : Bool := (envGet e n).isSome

/-- Python `kwargs.get(name, d)`. -/
def envGetD (e : Env) (n : PyStr) (d : Value) : Value := (envGet e n).getD d

/-- Dictionary write `kwargs[name] = v`: updates an existing key in place,
otherwise appends (Python dicts preserve insertion order). -/
def envSet : Env → PyStr → Value → Env
  | [], n, v => [(n, v)]
  | (k, w) :: r, n, v => if k = n then (k, v) :: r else (k, w) :: envSet r n v

/-- The Python exception kinds relevant to this module. -/
inductive PyError where
  | yamlSyntaxError (msg : PyStr)
  | attributeError (msg : PyStr)
  | nameError (msg : PyStr)
  | valueError (msg : PyStr)
  | typeError (msg : PyStr)

/-- The external command-execution collaborator (`command.Command(...).run()`
with the non-aborting `cl_n` mode): `.ok out` is a successful run returning
`out`; `.error out` is a raised `RunException` whose `.output` is `out`. -/
abbrev Runner := PyStr → Env → Except Value Value

/-- A trivial runner used as a concrete instance in witnesses. -/
def trivialRunner : Runner := fun _ _ => .ok (.str [])

/-- `get_var_name` from lang.py: strip whitespace, strip surrounding
quote characters, require a leading dollar, drop it, strip surrounding
brace characters. -/
def get_var_name (dolar_variable : PyStr) : Except PyError PyStr :=
  if pyStartswith (pystrip isQuote (stripWs dolar_variable)) (pys "$") then
    .ok (pystrip isBrace ((pystrip isQuote (stripWs dolar_variable)).drop 1))
  else
    .error (.yamlSyntaxError (pys "Not a proper variable name: " ++ dolar_variable))

/-- Python slice `expr[2:-1]`. -/
def pySlice2Neg1 (s : PyStr) : PyStr := (s.drop 2).dropLast

/-- The body of `evaluate` after the `not ` prefix has been handled:
computes `(success, output)` before inversion, or raises. `expression`
is the original full string (used in the final error message), `expr`
the trimmed remainder being dispatched on. -/
def evalCore (runner : Runner) (expression expr : PyStr) (kwargs : Env) :
    Except PyError (Bool × Value) :=
  if pyStartswith expr (pys "$(") then
    match runner (pySlice2Neg1 expr) kwargs with
    | .ok out => .ok (true, out)
    | .error exOut => .ok (false, exOut)
  else if pyStartswith expr (pys "$") || pyStartswith expr (dquote :: pys "$") then
    match get_var_name expr with
    | .ok var_name =>
      match envGet kwargs var_name with
      | some v => if v.truthy then .ok (true, v) else .ok (false, .str [])
      | none => .ok (false, .str [])
    | .error e => .error e
  else if pyStartswith expr (pys "defined ") then
    match get_var_name (expr.drop 8) with
    | .ok varname => .ok (envContains kwargs varname, envGetD kwargs varname (.str []))
    | .error e => .error e
  else
    .error (.yamlSyntaxError (pys "Not a valid expression: " ++ expression))

/-- The inversion flag of `evaluate`: exactly one leading `not ` on the
trimmed expression is recognized. -/
def invertFlag (expr0 : PyStr) : Bool := pyStartswith expr0 (pys "not ")

/-- The trimmed expression with a recognized `not ` prefix removed
(`expr = expr[4:]`). -/
def stripNot (expr0 : PyStr) : PyStr :=
  if invertFlag expr0 then expr0.drop 4 else expr0

/-- `evaluate` from lang.py. A non-string input is passed through as a
literal with its truthiness; a string is trimmed, an optional single
leading `not ` sets the inversion flag, and the remainder is dispatched
by `evalCore`; the flag negates only the logical result at the end. -/
def evaluate (runner : Runner) (expression : Value) (kwargs : Env) :
    Except PyError (Bool × Value) :=
  match expression with
  | .str s =>
    match evalCore runner s (stripNot (stripWs s)) kwargs with
    | .ok (success, output) =>
      .ok (if invertFlag (stripWs s) then !success else success, output)
    | .error e => .error e
  | v => .ok (v.truthy, v)

/-- `assign_variable` from lang.py. The environment is returned alongside
the outcome to model in-place mutation of `kwargs`; every error path of
the source raises before any write, so an error leaves it unchanged. -/
def assign_variable (runner : Runner) (variable_ : PyStr) (comm : Value)
    (kwargs : Env) : Except PyError Unit × Env :=
  if countChar ',' variable_ > 1 then
    (.error (.yamlSyntaxError (pys "Max two variables allowed on left side.")), kwargs)
  else
    match evaluate runner comm kwargs with
    | .error e => (.error e, kwargs)
    | .ok (res1, res2) =>
      if countChar ',' variable_ = 1 then
        match splitChar ',' variable_ with
        | [p1, p2] =>
          match get_var_name p1 with
          | .error e => (.error e, kwargs)
          | .ok var1 =>
            match get_var_name p2 with
            | .error e => (.error e, kwargs)
            | .ok var2 => (.ok (), envSet (envSet kwargs var1 (.bool res1)) var2 res2)
        | _ => (.error (.valueError (pys "unpacking mismatch")), kwargs)
      else
        match get_var_name variable_ with
        | .error e => (.error e, kwargs)
        | .ok var2 => (.ok (), envSet kwargs var2 res2)

/-- The `skip` flag of `get_section_from_condition`: true iff a next
section exists and its keyword is exactly `else`. -/
def skipOf {β : Type} (else_section : Option (PyStr × β)) : Bool :=
  match else_section with
  | some es => es.1 == pys "else"
  | none => false

/-- `get_section_from_condition` from lang.py. A section is a pair of its
header string and its body; the body type is abstract. -/
def get_section_from_condition {β : Type} (runner : Runner)
    (if_section : PyStr × β) (else_section : Option (PyStr × β))
    (kwargs : Env) : Except PyError (Nat × Bool × Option β) :=
  match evaluate runner (.str (stripWs (if_section.1.drop 2))) kwargs with
  | .error e => .error e
  | .ok (l, _) =>
    if l then .ok (0, skipOf else_section, some if_section.2)
    else if skipOf else_section then
      match else_section with
      | some es => .ok (1, skipOf else_section, some es.2)
      | none => .error (.typeError (pys "NoneType is not subscriptable"))
    else .ok (1, skipOf else_section, none)

/-!
The for-loop header regular expression of lang.py:

    for\s+(\${?\S}?)(?:\s*,\s+(\${?\S}?))?\s+in\s+(\S.+)

matched with `re.match` (anchored at the start, not at the end). The
matcher below is a hand-rolled backtracking engine specialized to this
pattern: every quantified piece produces its candidate splits in the
greedy order Python's engine tries them, and `firstSome` commits to the
first complete match, exactly like leftmost-greedy backtracking.
-/

/-- Return the first `some` produced by `f` over the list, in order. -/
def firstSome {α β : Type} (f : α → Option β) : List α → Option β
  | [] => none
  | a :: l =>
    match f a with
    | some r => some r
    | none => firstSome f l

/-- The splits `(s.take k, s.drop k)` for `k = n, n-1, ..., 1` (greedy
order for a one-or-more quantifier capped at `n`). -/
def splitCandsDesc (s : PyStr) : Nat → List (PyStr × PyStr)
  | 0 => []
  | k + 1 => (s.take (k + 1), s.drop (k + 1)) :: splitCandsDesc s k

/-- Candidates of `\s+` at the front of `s`, greedy order. -/
def spaceCandsPlus (s : PyStr) : List (PyStr × PyStr) :=
  splitCandsDesc s (takeWhileC pyIsSpace s).length

/-- Candidates of `\s*` at the front of `s`, greedy order (the empty
match comes last). -/
def spaceCandsStar (s : PyStr) : List (PyStr × PyStr) :=
  splitCandsDesc s (takeWhileC pyIsSpace s).length ++ [([], s)]

/-- Candidates of `.+` (one or more non-newline characters) at the front
of `s`, greedy order. -/
def dotPlusCands (s : PyStr) : List (PyStr × PyStr) :=
  splitCandsDesc s (takeWhileC (fun c => !(c == nlChar)) s).length

/-- Candidates of an optional literal character (`{?` or `}?`), greedy
order: consume it if present, then the empty match. -/
def optCharCands (ch : Char) (s : PyStr) : List (PyStr × PyStr) :=
  match s with
  | c :: r => if c = ch then [([ch], r), ([], s)] else [([], s)]
  | [] => [([], s)]

/-- Match `\${?\S}?` at the front of `s` and pass the captured token and
the remainder to the continuation `k`, backtracking over the optional
braces. -/
def matchVarTok {α : Type} (s : PyStr) (k : PyStr → PyStr → Option α) : Option α :=
  match s with
  | c0 :: r =>
    if c0 = '$' then
      firstSome (fun br =>
        match br.2 with
        | c :: r2 =>
          if pyIsSpace c then none
          else firstSome (fun cr => k (c0 :: (br.1 ++ [c] ++ cr.1)) cr.2)
            (optCharCands rbrace r2)
        | [] => none) (optCharCands lbrace r)
    else none
  | [] => none

/-- Match the tail `\s+in\s+(\S.+)` at the front of `s`, returning the
text captured by the third group. -/
def matchTail (s : PyStr) : Option PyStr :=
  firstSome (fun mr =>
    match mr.2 with
    | c1 :: c2 :: r2 =>
      if c1 = 'i' ∧ c2 = 'n' then
        firstSome (fun mr2 =>
          match mr2.2 with
          | c :: r4 =>
            if pyIsSpace c then none
            else firstSome (fun mr3 => some (c :: mr3.1)) (dotPlusCands r4)
          | [] => none) (spaceCandsPlus r2)
      else none
    | _ => none) (spaceCandsPlus s)

/-- The attempt to match the group body `\s*,\s+(\${?\S}?)` at the front
of `s` and continue with the rest of the pattern via `k (some capture)`. -/
def commaGroupAttempt {α : Type} (s : PyStr)
    (k : Option PyStr → PyStr → Option α) : Option α :=
  firstSome (fun mr =>
    match mr.2 with
    | c :: r2 =>
      if c = ',' then
        firstSome (fun mr2 => matchVarTok mr2.2 (fun g2 r4 => k (some g2) r4))
          (spaceCandsPlus r2)
      else none
    | [] => none) (spaceCandsStar s)

/-- Match the optional group `(?:\s*,\s+(\${?\S}?))?` at the front of
`s`: try the group first (its capture as `some`), and if no complete
match of the rest of the pattern arises that way, retry without it. -/
def matchComma {α : Type} (s : PyStr)
    (k : Option PyStr → PyStr → Option α) : Option α :=
  match commaGroupAttempt s k with
  | some res => some res
  | none => k none s

/-- `re.match` of the full for-loop pattern: on success, the three groups
`(variable token, optional second variable token, expression text)`. -/
def reMatchFor (s : PyStr) : Option (PyStr × Option PyStr × PyStr) :=
  match s with
  | c1 :: c2 :: c3 :: r0 =>
    if c1 = 'f' ∧ c2 = 'o' ∧ c3 = 'r' then
      firstSome (fun mr =>
        matchVarTok mr.2 (fun g1 r2 =>
          matchComma r2 (fun g2 r3 =>
            (matchTail r3).map (fun g3 => (g1, g2, g3)))))
        (spaceCandsPlus r0)
    else none
  | _ => none

/-- `parse_for` from lang.py. The source calls `.groups()` on the result
of `regex.match` before checking it, so a non-matching header raises
`AttributeError` (`NoneType` has no attribute `groups`); the subsequent
`if not res` guard can never fire, because `res` is a 3-tuple, which is
always truthy, so the prepared `YamlSyntaxError` is unreachable. -/
def parse_for (control_line : PyStr) : Except PyError (List PyStr × PyStr) :=
  match reMatchFor control_line with
  | none => .error (.attributeError (pys "NoneType object has no attribute groups"))
  | some (g1, g2, g3) =>
    match get_var_name g1 with
    | .error e => .error e
    | .ok v1 =>
      match g2 with
      | some t2 =>
        if t2.isEmpty then .ok ([v1], g3)
        else
          match get_var_name t2 with
          | .error e => .error e
          | .ok v2 => .ok ([v1, v2], g3)
      | none => .ok ([v1], g3)

/-- An iteration item produced by the loop iterable resolver: either a
whitespace-split token or a dict `(key, value)` pair. The empty iterable
is the empty list of items. -/
inductive PyItem where
  | s (x : PyStr)
  | kv (k : PyStr) (v : Value)

/-- `get_for_control_var_and_eval_expr` from lang.py. Both
`except exceptions.YamlSyntaxError` handlers call `logger.error` /
`logger.log`, but the module never imports (or defines) `logger`, so a
caught `YamlSyntaxError` is replaced by a `NameError` raised inside the
handler; any other exception (notably the `AttributeError` from
`parse_for`) propagates unchanged. -/
def get_for_control_var_and_eval_expr (runner : Runner) (comm_type : PyStr)
    (kwargs : Env) : Except PyError (List PyStr × List PyItem) :=
  match parse_for comm_type with
  | .error (.yamlSyntaxError _) => .error (.nameError (pys "name logger is not defined"))
  | .error e => .error e
  | .ok (control_vars, expression) =>
    match evaluate runner (.str expression) kwargs with
    | .error (.yamlSyntaxError _) => .error (.nameError (pys "name logger is not defined"))
    | .error e => .error e
    | .ok (_, eval_expression) =>
      if control_vars.length = 2 then
        match eval_expression with
        | .dict xs => .ok (control_vars, xs.map (fun p => PyItem.kv p.1 p.2))
        | v => .error (.yamlSyntaxError
            (pys "Cant expand " ++ pyTypeName v ++ pys " to two control variables."))
      else
        match eval_expression with
        | .str s => .ok (control_vars, (pySplitWs s).map PyItem.s)
        | _ => .ok (control_vars, [])

/-! ### Auxiliary facts about characters and the string primitives -/

/-- Two characters on which a boolean character class disagrees differ. -/
theorem charNe {f : Char → Bool} {a b : Char} (h1 : f a = true) (h2 : f b = false) :
    a ≠ b := by
  intro e
  rw [e] at h1
  rw [h1] at h2
  exact Bool.noConfusion h2

/-- Identifier characters are not whitespace. -/
theorem alnum_not_space {c : Char} (h : isAlnumU c = true) : pyIsSpace c = false := by
  cases hs : pyIsSpace c
  · rfl
  · exfalso
    simp only [pyIsSpace, Bool.or_eq_true, beq_iff_eq] at hs
    rcases hs with ((((h1 | h1) | h1) | h1) | h1) | h1 <;> (subst h1; revert h; decide)

/-- Identifier characters are not quote characters. -/
theorem alnum_not_quote {c : Char} (h : isAlnumU c = true) : isQuote c = false := by
  cases hs : isQuote c
  · rfl
  · exfalso
    simp only [isQuote, Bool.or_eq_true, beq_iff_eq] at hs
    rcases hs with h1 | h1 <;> (subst h1; revert h; decide)

/-- Identifier characters are not brace characters. -/
theorem alnum_not_brace {c : Char} (h : isAlnumU c = true) : isBrace c = false := by
  cases hs : isBrace c
  · rfl
  · exfalso
    simp only [isBrace, Bool.or_eq_true, beq_iff_eq] at hs
    rcases hs with h1 | h1 <;> (subst h1; revert h; decide)

/-- Quote characters are not whitespace. -/
theorem quote_not_space {c : Char} (h : isQuote c = true) : pyIsSpace c = false := by
  simp only [isQuote, Bool.or_eq_true, beq_iff_eq] at h
  rcases h with h1 | h1 <;> (subst h1; decide)

/-- Brace characters are not whitespace. -/
theorem brace_not_space {c : Char} (h : isBrace c = true) : pyIsSpace c = false := by
  simp only [isBrace, Bool.or_eq_true, beq_iff_eq] at h
  rcases h with h1 | h1 <;> (subst h1; decide)

/-- Brace characters are not quote characters. -/
theorem brace_not_quote {c : Char} (h : isBrace c = true) : isQuote c = false := by
  simp only [isBrace, Bool.or_eq_true, beq_iff_eq] at h
  rcases h with h1 | h1 <;> (subst h1; decide)

theorem dropWhileC_eq_self (p : Char → Bool) :
    ∀ l : PyStr, (∀ c ∈ l, p c = false) → dropWhileC p l = l
  | [], _ => rfl
  | c :: r, h => by
    have hc := h c (List.mem_cons_self c r)
    simp [dropWhileC, hc]

theorem dropWhileC_all_append (p : Char → Bool) :
    ∀ w r : PyStr, (∀ c ∈ w, p c = true) → dropWhileC p (w ++ r) = dropWhileC p r
  | [], _, _ => rfl
  | c :: w, r, h => by
    have hc := h c (List.mem_cons_self c w)
    have ih := dropWhileC_all_append p w r (fun d hd => h d (List.mem_cons_of_mem c hd))
    simp [dropWhileC, hc, ih]

theorem length_dropWhileC_le (p : Char → Bool) :
    ∀ l : PyStr, (dropWhileC p l).length ≤ l.length
  | [] => Nat.le_refl 0
  | c :: r => by
    cases hc : p c
    · simp [dropWhileC, hc]
    · simp only [dropWhileC, hc, if_pos]
      exact Nat.le_trans (length_dropWhileC_le p r) (by simp)

theorem dropWhileC_eq_self_of_length (p : Char → Bool) :
    ∀ l : PyStr, (dropWhileC p l).length = l.length → dropWhileC p l = l
  | [], _ => rfl
  | c :: r, h => by
    cases hc : p c
    · simp [dropWhileC, hc]
    · exfalso
      simp only [dropWhileC, hc, if_pos, List.length_cons] at h
      have hle := length_dropWhileC_le p r
      omega

theorem pystrip_eq_self (p : Char → Bool) (l : PyStr) (h : ∀ c ∈ l, p c = false) :
    pystrip p l = l := by
  unfold pystrip lstripC rstripC
  rw [dropWhileC_eq_self p l h,
    dropWhileC_eq_self p l.reverse (fun c hc => h c (List.mem_reverse.mp hc))]
  exact List.reverse_reverse l

theorem dropWhileC_all (p : Char → Bool) (w : PyStr) (h : ∀ c ∈ w, p c = true) :
    dropWhileC p w = [] := by
  have := dropWhileC_all_append p w [] h
  simpa using this

/-- Stripping a character class removes exactly the wrapped layers when the
middle has none of the stripped characters. -/
theorem pystrip_wrap (p : Char → Bool) (pre mid post : PyStr)
    (h1 : ∀ c ∈ pre, p c = true) (h2 : ∀ c ∈ post, p c = true)
    (h3 : ∀ c ∈ mid, p c = false) :
    pystrip p (pre ++ mid ++ post) = mid := by
  unfold pystrip lstripC rstripC
  rw [List.append_assoc, dropWhileC_all_append p pre (mid ++ post) h1]
  cases mid with
  | nil =>
    rw [List.nil_append, dropWhileC_all p post h2]
    rfl
  | cons m t =>
    have hm := h3 m (List.mem_cons_self m t)
    rw [show ((m :: t) ++ post : PyStr) = m :: (t ++ post) from rfl]
    rw [show dropWhileC p (m :: (t ++ post)) = m :: (t ++ post) from by simp [dropWhileC, hm]]
    rw [show (m :: (t ++ post) : PyStr) = (m :: t) ++ post from rfl]
    rw [List.reverse_append, dropWhileC_all_append p post.reverse (m :: t).reverse
      (fun c hc => h2 c (List.mem_reverse.mp hc))]
    rw [dropWhileC_eq_self p (m :: t).reverse
      (fun c hc => h3 c (List.mem_reverse.mp hc))]
    exact List.reverse_reverse (m :: t)

/-- Predicate: the head of the string (if any) fails the class `p`. -/
def headNotP (p : Char → Bool) : PyStr → Prop
  | [] => True
  | c :: _ => p c = false

/-- Predicate: the head of the string (if any) differs from `ch`. -/
def headNe (ch : Char) : PyStr → Prop
  | [] => True
  | c :: _ => c ≠ ch

theorem takeWhileC_all_append (p : Char → Bool) :
    ∀ w r : PyStr, (∀ c ∈ w, p c = true) → headNotP p r → takeWhileC p (w ++ r) = w
  | [], r, _, hr => by
    cases r with
    | nil => rfl
    | cons c t =>
      have hc : p c = false := hr
      simp [takeWhileC, hc]
  | c :: w, r, h, hr => by
    have hc := h c (List.mem_cons_self c w)
    have ih := takeWhileC_all_append p w r (fun d hd => h d (List.mem_cons_of_mem c hd)) hr
    simp [takeWhileC, hc, ih]

theorem takeWhileC_all (p : Char → Bool) :
    ∀ l : PyStr, (∀ c ∈ l, p c = true) → takeWhileC p l = l
  | [], _ => rfl
  | c :: r, h => by
    have hc := h c (List.mem_cons_self c r)
    have ih := takeWhileC_all p r (fun d hd => h d (List.mem_cons_of_mem c hd))
    simp [takeWhileC, hc, ih]

theorem take_append_len : ∀ w r : PyStr, (w ++ r).take w.length = w
  | [], _ => rfl
  | c :: w, r => by
    simp [take_append_len w r]

theorem drop_append_len : ∀ w r : PyStr, (w ++ r).drop w.length = r
  | [], _ => rfl
  | c :: w, r => by
    simp [drop_append_len w r]

theorem drop_append_le : ∀ (w r : PyStr) (k : Nat), k ≤ w.length →
    (w ++ r).drop k = w.drop k ++ r
  | _, _, 0, _ => rfl
  | c :: w, r, k + 1, h => by
    simp only [List.cons_append, List.drop_succ_cons]
    exact drop_append_le w r k (Nat.le_of_succ_le_succ h)
  | [], _, k + 1, h => by
    exact absurd h (by simp)

theorem mem_splitCandsDesc (s : PyStr) :
    ∀ (n : Nat) (mr : PyStr × PyStr), mr ∈ splitCandsDesc s n →
      ∃ k, 1 ≤ k ∧ k ≤ n ∧ mr = (s.take k, s.drop k)
  | 0, mr, h => absurd h (List.not_mem_nil mr)
  | n + 1, mr, h => by
    rcases List.mem_cons.mp h with h1 | h1
    · exact ⟨n + 1, Nat.succ_le_succ (Nat.zero_le n), Nat.le_refl _, h1⟩
    · obtain ⟨k, hk1, hk2, hk3⟩ := mem_splitCandsDesc s n mr h1
      exact ⟨k, hk1, Nat.le_succ_of_le hk2, hk3⟩

theorem firstSome_cons_some {α β : Type} (f : α → Option β) (a : α) (l : List α)
    (x : β) (h : f a = some x) : firstSome f (a :: l) = some x := by
  simp [firstSome, h]

theorem firstSome_eq_none {α β : Type} (f : α → Option β) :
    ∀ l : List α, (∀ a ∈ l, f a = none) → firstSome f l = none
  | [], _ => rfl
  | a :: l, h => by
    have ha := h a (List.mem_cons_self a l)
    have ih := firstSome_eq_none f l (fun b hb => h b (List.mem_cons_of_mem a hb))
    simp [firstSome, ha, ih]

/-! ### First-match lemmas for the for-loop header matcher -/

theorem firstSome_spaceCandsPlus {α : Type} (f : PyStr × PyStr → Option α)
    (w r : PyStr) (x : α)
    (hw : ∀ c ∈ w, pyIsSpace c = true) (hw0 : w ≠ [])
    (hr : headNotP pyIsSpace r) (h : f (w, r) = some x) :
    firstSome f (spaceCandsPlus (w ++ r)) = some x := by
  unfold spaceCandsPlus
  rw [takeWhileC_all_append pyIsSpace w r hw hr]
  cases w with
  | nil => exact absurd rfl hw0
  | cons c t =>
    have h1 : ((c :: t) ++ r).take (t.length + 1) = c :: t := by
      simpa using take_append_len (c :: t) r
    have h2 : ((c :: t) ++ r).drop (t.length + 1) = r := by
      simpa using drop_append_len (c :: t) r
    rw [List.length_cons, splitCandsDesc, h1, h2]
    exact firstSome_cons_some f (c :: t, r) _ x h

theorem firstSome_spaceCandsStar {α : Type} (f : PyStr × PyStr → Option α)
    (w r : PyStr) (x : α)
    (hw : ∀ c ∈ w, pyIsSpace c = true)
    (hr : headNotP pyIsSpace r) (h : f (w, r) = some x) :
    firstSome f (spaceCandsStar (w ++ r)) = some x := by
  unfold spaceCandsStar
  rw [takeWhileC_all_append pyIsSpace w r hw hr]
  cases w with
  | nil =>
    simp only [List.length_nil, splitCandsDesc, List.nil_append]
    exact firstSome_cons_some f ([], r) _ x h
  | cons c t =>
    have h1 : ((c :: t) ++ r).take (t.length + 1) = c :: t := by
      simpa using take_append_len (c :: t) r
    have h2 : ((c :: t) ++ r).drop (t.length + 1) = r := by
      simpa using drop_append_len (c :: t) r
    rw [List.length_cons, splitCandsDesc, h1, h2, List.cons_append]
    exact firstSome_cons_some f (c :: t, r) _ x h

theorem firstSome_dotPlusCands {α : Type} (f : PyStr × PyStr → Option α)
    (r : PyStr) (x : α)
    (hr : ∀ c ∈ r, (c == nlChar) = false) (h0 : r ≠ [])
    (h : f (r, []) = some x) :
    firstSome f (dotPlusCands r) = some x := by
  unfold dotPlusCands
  rw [takeWhileC_all (fun c => !(c == nlChar)) r (fun c hc => by simp [hr c hc])]
  cases r with
  | nil => exact absurd rfl h0
  | cons c t =>
    rw [List.length_cons, splitCandsDesc]
    rw [show (c :: t).take (t.length + 1) = c :: t from by
      simpa using List.take_length (c :: t)]
    rw [show (c :: t).drop (t.length + 1) = [] from by
      simpa using List.drop_length (c :: t)]
    exact firstSome_cons_some f (c :: t, []) _ x h

theorem matchVarTok_plain {α : Type} (k : PyStr → PyStr → Option α)
    (v : Char) (rest : PyStr) (x : α)
    (hv : pyIsSpace v = false) (hv2 : v ≠ lbrace) (hr : headNe rbrace rest)
    (h : k ['$', v] rest = some x) :
    matchVarTok ('$' :: v :: rest) k = some x := by
  simp only [matchVarTok, eq_self_iff_true, if_true]
  rw [show optCharCands lbrace (v :: rest) = [([], v :: rest)] from by
    simp [optCharCands, hv2]]
  apply firstSome_cons_some
  simp only [hv, Bool.false_eq_true, if_false]
  cases rest with
  | nil =>
    rw [show optCharCands rbrace [] = [([], [])] from rfl]
    apply firstSome_cons_some
    simpa using h
  | cons c' t' =>
    have hc' : c' ≠ rbrace := hr
    rw [show optCharCands rbrace (c' :: t') = [([], c' :: t')] from by
      simp [optCharCands, hc']]
    apply firstSome_cons_some
    simpa using h

theorem matchVarTok_brace {α : Type} (k : PyStr → PyStr → Option α)
    (v : Char) (rest : PyStr) (x : α)
    (hv : pyIsSpace v = false)
    (h : k ['$', lbrace, v, rbrace] rest = some x) :
    matchVarTok ('$' :: lbrace :: v :: rbrace :: rest) k = some x := by
  simp only [matchVarTok, eq_self_iff_true, if_true]
  rw [show optCharCands lbrace (lbrace :: v :: rbrace :: rest) =
      [([lbrace], v :: rbrace :: rest), ([], lbrace :: v :: rbrace :: rest)] from by
    simp [optCharCands]]
  apply firstSome_cons_some
  simp only [hv, Bool.false_eq_true, if_false]
  rw [show optCharCands rbrace (rbrace :: rest) =
      [([rbrace], rest), ([], rbrace :: rest)] from by simp [optCharCands]]
  apply firstSome_cons_some
  simpa using h

theorem matchTail_spec (w1 w2 : PyStr) (c : Char) (r : PyStr)
    (hw1 : ∀ d ∈ w1, pyIsSpace d = true) (hw1n : w1 ≠ [])
    (hw2 : ∀ d ∈ w2, pyIsSpace d = true) (hw2n : w2 ≠ [])
    (hc : pyIsSpace c = false) (hr0 : r ≠ [])
    (hr : ∀ d ∈ r, (d == nlChar) = false) :
    matchTail (w1 ++ 'i' :: 'n' :: (w2 ++ c :: r)) = some (c :: r) := by
  unfold matchTail
  apply firstSome_spaceCandsPlus _ w1 ('i' :: 'n' :: (w2 ++ c :: r)) _ hw1 hw1n
    (by show pyIsSpace 'i' = false; decide)
  simp only [eq_self_iff_true, and_self, if_true]
  apply firstSome_spaceCandsPlus _ w2 (c :: r) _ hw2 hw2n hc
  simp only [hc, Bool.false_eq_true, if_false]
  apply firstSome_dotPlusCands _ r _ hr hr0
  rfl

theorem commaGroupAttempt_none {α : Type} (k : Option PyStr → PyStr → Option α)
    (w t : PyStr) (hw : ∀ c ∈ w, pyIsSpace c = true) :
    commaGroupAttempt (w ++ 'i' :: 'n' :: t) k = none := by
  unfold commaGroupAttempt
  apply firstSome_eq_none
  intro mr hmr
  have htw : takeWhileC pyIsSpace (w ++ 'i' :: 'n' :: t) = w :=
    takeWhileC_all_append pyIsSpace w ('i' :: 'n' :: t) hw
      (by show pyIsSpace 'i' = false; decide)
  simp only [spaceCandsStar, htw] at hmr
  have key : ∀ (z : PyStr) (a : PyStr), (∀ c ∈ z, pyIsSpace c = true) →
      (match (z ++ 'i' :: 'n' :: t : PyStr) with
       | c :: r2 =>
         if c = ',' then
           firstSome (fun mr2 => matchVarTok mr2.2 (fun g2 r4 => k (some g2) r4))
             (spaceCandsPlus r2)
         else none
       | [] => (none : Option α)) = none := by
    intro z a hz
    cases z with
    | nil => simp
    | cons c' t' =>
      have hne : c' ≠ ',' :=
        charNe (hz c' (List.mem_cons_self c' t')) (by decide)
      simp [hne]
  rcases List.mem_append.mp hmr with hmem | hmem
  · obtain ⟨k0, hk1, hk2, hk3⟩ := mem_splitCandsDesc _ _ mr hmem
    subst hk3
    have hdrop : (w ++ 'i' :: 'n' :: t).drop k0 = w.drop k0 ++ 'i' :: 'n' :: t :=
      drop_append_le w ('i' :: 'n' :: t) k0 hk2
    show (match (w ++ 'i' :: 'n' :: t).drop k0 with
      | c :: r2 =>
        if c = ',' then
          firstSome (fun mr2 => matchVarTok mr2.2 (fun g2 r4 => k (some g2) r4))
            (spaceCandsPlus r2)
        else none
      | [] => (none : Option α)) = none
    rw [hdrop]
    exact key (w.drop k0) [] (fun c hc => hw c (List.drop_subset _ _ hc))
  · have hmr2 : mr = ([], w ++ 'i' :: 'n' :: t) := by simpa using hmem
    subst hmr2
    exact key w [] hw

theorem commaGroupAttempt_some {α : Type} (k : Option PyStr → PyStr → Option α)
    (w0 w2 s2 : PyStr) (x : α)
    (hw0 : ∀ c ∈ w0, pyIsSpace c = true)
    (hw2 : ∀ c ∈ w2, pyIsSpace c = true) (hw2n : w2 ≠ [])
    (hs2 : headNotP pyIsSpace s2)
    (h : matchVarTok s2 (fun g2 r4 => k (some g2) r4) = some x) :
    commaGroupAttempt (w0 ++ ',' :: (w2 ++ s2)) k = some x := by
  unfold commaGroupAttempt
  apply firstSome_spaceCandsStar _ w0 (',' :: (w2 ++ s2)) x hw0
    (by show pyIsSpace ',' = false; decide)
  simp only [eq_self_iff_true, if_true]
  exact firstSome_spaceCandsPlus _ w2 s2 x hw2 hw2n hs2 h

theorem matchComma_skip {α : Type} (k : Option PyStr → PyStr → Option α)
    (w t : PyStr) (hw : ∀ c ∈ w, pyIsSpace c = true) :
    matchComma (w ++ 'i' :: 'n' :: t) k = k none (w ++ 'i' :: 'n' :: t) := by
  unfold matchComma
  rw [commaGroupAttempt_none k w t hw]

theorem matchComma_take {α : Type} (k : Option PyStr → PyStr → Option α)
    (w0 w2 s2 : PyStr) (x : α)
    (hw0 : ∀ c ∈ w0, pyIsSpace c = true)
    (hw2 : ∀ c ∈ w2, pyIsSpace c = true) (hw2n : w2 ≠ [])
    (hs2 : headNotP pyIsSpace s2)
    (h : matchVarTok s2 (fun g2 r4 => k (some g2) r4) = some x) :
    matchComma (w0 ++ ',' :: (w2 ++ s2)) k = some x := by
  unfold matchComma
  rw [commaGroupAttempt_some k w0 w2 s2 x hw0 hw2 hw2n hs2 h]

/-- The expression part of an accepted header: a non-space character
followed by a nonempty newline-free remainder (the regex suffix `\S.+`
capturing through the end of the line). -/
def goodExpr : PyStr → Bool
  | [] => false
  | c :: r => !pyIsSpace c && !r.isEmpty && r.all (fun x => !(x == nlChar))

theorem goodExpr_elim {e : PyStr} (h : goodExpr e = true) :
    ∃ c r, e = c :: r ∧ pyIsSpace c = false ∧ r ≠ [] ∧
      ∀ d ∈ r, (d == nlChar) = false := by
  cases e with
  | nil => exact absurd h (by decide)
  | cons c r =>
    simp only [goodExpr, Bool.and_eq_true, Bool.not_eq_true'] at h
    obtain ⟨⟨h1, h2⟩, h3⟩ := h
    refine ⟨c, r, rfl, h1, ?_, ?_⟩
    · intro hn
      rw [hn] at h2
      exact absurd h2 (by decide)
    · intro d hd
      have := List.all_eq_true.mp h3 d hd
      simpa using this

theorem reMatchFor_plain (w1 w2 w3 : PyStr) (v : Char) (e : PyStr)
    (hw1 : ∀ c ∈ w1, pyIsSpace c = true) (hw1n : w1 ≠ [])
    (hw2 : ∀ c ∈ w2, pyIsSpace c = true) (hw2n : w2 ≠ [])
    (hw3 : ∀ c ∈ w3, pyIsSpace c = true) (hw3n : w3 ≠ [])
    (hv : pyIsSpace v = false) (hv2 : v ≠ lbrace)
    (he : goodExpr e = true) :
    reMatchFor ('f' :: 'o' :: 'r' ::
        (w1 ++ '$' :: v :: (w2 ++ 'i' :: 'n' :: (w3 ++ e)))) =
      some (['$', v], none, e) := by
  obtain ⟨c, r, rfl, hc, hr0, hrnl⟩ := goodExpr_elim he
  simp only [reMatchFor, eq_self_iff_true, and_self, if_true]
  apply firstSome_spaceCandsPlus _ w1
    ('$' :: v :: (w2 ++ 'i' :: 'n' :: (w3 ++ c :: r))) _ hw1 hw1n
    (by show pyIsSpace '$' = false; decide)
  apply matchVarTok_plain _ v _ _ hv hv2 (by
    cases w2 with
    | nil => exact absurd rfl hw2n
    | cons c2 t2 => exact charNe (hw2 c2 (List.mem_cons_self c2 t2)) (by decide))
  simp only [matchComma_skip _ w2 (w3 ++ c :: r) hw2,
    matchTail_spec w2 w3 c r hw2 hw2n hw3 hw3n hc hr0 hrnl, Option.map_some']

theorem reMatchFor_braced (w1 w2 w3 : PyStr) (v : Char) (e : PyStr)
    (hw1 : ∀ c ∈ w1, pyIsSpace c = true) (hw1n : w1 ≠ [])
    (hw2 : ∀ c ∈ w2, pyIsSpace c = true) (hw2n : w2 ≠ [])
    (hw3 : ∀ c ∈ w3, pyIsSpace c = true) (hw3n : w3 ≠ [])
    (hv : pyIsSpace v = false)
    (he : goodExpr e = true) :
    reMatchFor ('f' :: 'o' :: 'r' ::
        (w1 ++ '$' :: lbrace :: v :: rbrace :: (w2 ++ 'i' :: 'n' :: (w3 ++ e)))) =
      some (['$', lbrace, v, rbrace], none, e) := by
  obtain ⟨c, r, rfl, hc, hr0, hrnl⟩ := goodExpr_elim he
  simp only [reMatchFor, eq_self_iff_true, and_self, if_true]
  apply firstSome_spaceCandsPlus _ w1
    (('$' :: lbrace :: v :: rbrace :: (w2 ++ 'i' :: 'n' :: (w3 ++ c :: r)))) _ hw1 hw1n
    (by show pyIsSpace '$' = false; decide)
  apply matchVarTok_brace _ v _ _ hv
  simp only [matchComma_skip _ w2 (w3 ++ c :: r) hw2,
    matchTail_spec w2 w3 c r hw2 hw2n hw3 hw3n hc hr0 hrnl, Option.map_some']

theorem reMatchFor_pair (w1 w0 w2 w3 w4 : PyStr) (v1 v2 : Char) (e : PyStr)
    (hw1 : ∀ c ∈ w1, pyIsSpace c = true) (hw1n : w1 ≠ [])
    (hw0 : ∀ c ∈ w0, pyIsSpace c = true)
    (hw2 : ∀ c ∈ w2, pyIsSpace c = true) (hw2n : w2 ≠ [])
    (hw3 : ∀ c ∈ w3, pyIsSpace c = true) (hw3n : w3 ≠ [])
    (hw4 : ∀ c ∈ w4, pyIsSpace c = true) (hw4n : w4 ≠ [])
    (hv1 : pyIsSpace v1 = false) (hv12 : v1 ≠ lbrace)
    (hv2 : pyIsSpace v2 = false) (hv22 : v2 ≠ lbrace)
    (he : goodExpr e = true) :
    reMatchFor ('f' :: 'o' :: 'r' ::
        (w1 ++ '$' :: v1 :: (w0 ++ ',' ::
          (w2 ++ '$' :: v2 :: (w3 ++ 'i' :: 'n' :: (w4 ++ e)))))) =
      some (['$', v1], some ['$', v2], e) := by
  obtain ⟨c, r, rfl, hc, hr0, hrnl⟩ := goodExpr_elim he
  simp only [reMatchFor, eq_self_iff_true, and_self, if_true]
  apply firstSome_spaceCandsPlus _ w1
    ('$' :: v1 :: (w0 ++ ',' :: (w2 ++ '$' :: v2 ::
      (w3 ++ 'i' :: 'n' :: (w4 ++ c :: r))))) _ hw1 hw1n
    (by show pyIsSpace '$' = false; decide)
  apply matchVarTok_plain _ v1 _ _ hv1 hv12 (by
    cases w0 with
    | nil => exact (by decide : (',' : Char) ≠ rbrace)
    | cons c0 t0 => exact charNe (hw0 c0 (List.mem_cons_self c0 t0)) (by decide))
  apply matchComma_take _ w0 w2
    ('$' :: v2 :: (w3 ++ 'i' :: 'n' :: (w4 ++ c :: r))) _ hw0 hw2 hw2n
    (by show pyIsSpace '$' = false; decide)
  apply matchVarTok_plain _ v2 _ _ hv2 hv22 (by
    cases w3 with
    | nil => exact absurd rfl hw3n
    | cons c3 t3 => exact charNe (hw3 c3 (List.mem_cons_self c3 t3)) (by decide))
  simp only [matchTail_spec w3 w4 c r hw3 hw3n hw4 hw4n hc hr0 hrnl, Option.map_some']

/-- `get_var_name` on a single-character plain token. -/
theorem get_var_name_tok_plain (v : Char) (hv : isAlnumU v = true) :
    get_var_name ['$', v] = .ok [v] := by
  unfold get_var_name
  rw [show stripWs ['$', v] = ['$', v] from pystrip_eq_self _ _ (by
    intro c hc
    rcases List.mem_cons.mp hc with h1 | h1
    · subst h1; decide
    · have h2 : c = v := by simpa using h1
      subst h2; exact alnum_not_space hv)]
  rw [show pystrip isQuote ['$', v] = ['$', v] from pystrip_eq_self _ _ (by
    intro c hc
    rcases List.mem_cons.mp hc with h1 | h1
    · subst h1; decide
    · have h2 : c = v := by simpa using h1
      subst h2; exact alnum_not_quote hv)]
  rw [if_pos (show pyStartswith ['$', v] (pys "$") = true from rfl)]
  rw [show (['$', v] : PyStr).drop 1 = [v] from rfl]
  rw [pystrip_eq_self _ _ (by
    intro c hc
    have h2 : c = v := by simpa using hc
    subst h2; exact alnum_not_brace hv)]

/-- `get_var_name` on a single-character brace-wrapped token. -/
theorem get_var_name_tok_braced (v : Char) (hv : isAlnumU v = true) :
    get_var_name ['$', lbrace, v, rbrace] = .ok [v] := by
  unfold get_var_name
  rw [show stripWs ['$', lbrace, v, rbrace] = ['$', lbrace, v, rbrace] from
    pystrip_eq_self _ _ (by
      intro c hc
      rcases List.mem_cons.mp hc with h1 | h1
      · subst h1; decide
      · rcases List.mem_cons.mp h1 with h2 | h2
        · subst h2; decide
        · rcases List.mem_cons.mp h2 with h3 | h3
          · subst h3; exact alnum_not_space hv
          · have h4 : c = rbrace := by simpa using h3
            subst h4; decide)]
  rw [show pystrip isQuote ['$', lbrace, v, rbrace] = ['$', lbrace, v, rbrace] from
    pystrip_eq_self _ _ (by
      intro c hc
      rcases List.mem_cons.mp hc with h1 | h1
      · subst h1; decide
      · rcases List.mem_cons.mp h1 with h2 | h2
        · subst h2; decide
        · rcases List.mem_cons.mp h2 with h3 | h3
          · subst h3; exact alnum_not_quote hv
          · have h4 : c = rbrace := by simpa using h3
            subst h4; decide)]
  rw [if_pos (show pyStartswith ['$', lbrace, v, rbrace] (pys "$") = true from rfl)]
  rw [show (['$', lbrace, v, rbrace] : PyStr).drop 1 = [lbrace, v, rbrace] from rfl]
  rw [show ([lbrace, v, rbrace] : PyStr) = [lbrace] ++ [v] ++ [rbrace] from rfl]
  rw [pystrip_wrap isBrace [lbrace] [v] [rbrace]
    (by intro c hc; have h1 : c = lbrace := (by simpa using hc); subst h1; decide)
    (by intro c hc; have h1 : c = rbrace := (by simpa using hc); subst h1; decide)
    (by intro c hc; have h1 : c = v := by simpa using hc
        subst h1; exact alnum_not_brace hv)]

/-! ### Environment and evaluation helper lemmas -/

theorem envGet_envSet_self : ∀ (e : Env) (n : PyStr) (v : Value),
    envGet (envSet e n v) n = some v
  | [], n, v => by simp [envSet, envGet]
  | (k, w) :: r, n, v => by
    by_cases hk : k = n
    · subst hk
      simp [envSet, envGet]
    · simp [envSet, envGet, hk, envGet_envSet_self r n v]

theorem envGet_envSet_ne : ∀ (e : Env) (n m : PyStr) (v : Value), m ≠ n →
    envGet (envSet e n v) m = envGet e m
  | [], n, m, v, h => by
    simp only [envSet, envGet]
    rw [if_neg (fun hh : n = m => h hh.symm)]
  | (k, w) :: r, n, m, v, h => by
    by_cases hk : k = n
    · subst hk
      simp only [envSet, eq_self_iff_true, if_true, envGet]
      rw [if_neg (fun hh : k = m => h hh.symm), if_neg (fun hh : k = m => h hh.symm)]
    · simp only [envSet, hk, if_false, envGet]
      by_cases hm : k = m
      · simp [hm]
      · simp [hm, envGet_envSet_ne r n m v h]

@[simp] theorem pyStartswith_nil_right (s : PyStr) : pyStartswith s [] = true := by
  cases s <;> rfl

theorem pyStartswith_append_self : ∀ p r : PyStr, pyStartswith (p ++ r) p = true
  | [], r => by simp
  | c :: p, r => by simp [pyStartswith, pyStartswith_append_self p r]

theorem forall_mem_cons_of {p : Char → Bool} {c0 : Char} {n : PyStr}
    (h0 : p c0 = false) (hn : ∀ c ∈ n, p c = false) :
    ∀ c ∈ (c0 :: n : PyStr), p c = false := by
  intro c hc
  rcases List.mem_cons.mp hc with h1 | h1
  · subst h1; exact h0
  · exact hn c h1

/-- Names made only of identifier characters (the shape under which the
spec quantifies over "names"). -/
def goodName (n : PyStr) : Bool := n.all isAlnumU

theorem goodName_mem {n : PyStr} (h : goodName n = true) :
    ∀ c ∈ n, isAlnumU c = true :=
  fun c hc => List.all_eq_true.mp h c hc

/-- `get_var_name` on a dollar-prefixed identifier returns the identifier. -/
theorem get_var_name_dollar (n : PyStr) (h : goodName n = true) :
    get_var_name ('$' :: n) = .ok n := by
  have hmem := goodName_mem h
  have hsp : ∀ c ∈ n, pyIsSpace c = false := fun c hc => alnum_not_space (hmem c hc)
  have hqu : ∀ c ∈ n, isQuote c = false := fun c hc => alnum_not_quote (hmem c hc)
  have hbr : ∀ c ∈ n, isBrace c = false := fun c hc => alnum_not_brace (hmem c hc)
  unfold get_var_name
  rw [show stripWs ('$' :: n) = '$' :: n from
    pystrip_eq_self _ _ (forall_mem_cons_of (by decide) hsp)]
  rw [show pystrip isQuote ('$' :: n) = '$' :: n from
    pystrip_eq_self _ _ (forall_mem_cons_of (by decide) hqu)]
  rw [if_pos (show pyStartswith ('$' :: n) (pys "$") = true from by
    simp [pyStartswith])]
  rw [show (('$' :: n : PyStr)).drop 1 = n from rfl]
  rw [pystrip_eq_self _ _ hbr]

/-- Evaluating `$name` for an identifier `name` performs exactly the
environment lookup with the truthiness rule of lang.py. -/
theorem eval_dollar (runner : Runner) (E : Env) (n : PyStr) (h : goodName n = true) :
    evaluate runner (.str ('$' :: n)) E =
      .ok (match envGet E n with
        | some v => if v.truthy then (true, v) else (false, Value.str [])
        | none => (false, Value.str [])) := by
  have hmem := goodName_mem h
  have hsp : ∀ c ∈ n, pyIsSpace c = false := fun c hc => alnum_not_space (hmem c hc)
  have hstrip : stripWs ('$' :: n) = '$' :: n :=
    pystrip_eq_self _ _ (forall_mem_cons_of (by decide) hsp)
  have hnot : invertFlag ('$' :: n) = false := by
    show pyStartswith ('$' :: n) (pys "not ") = false
    simp [pyStartswith]
  have hsn : stripNot ('$' :: n) = '$' :: n := by
    simp [stripNot, hnot]
  have hcmd : pyStartswith ('$' :: n) (pys "$(") = false := by
    show pyStartswith ('$' :: n) ('$' :: '(' :: []) = false
    cases n with
    | nil => rfl
    | cons c t =>
      have hne : c ≠ '(' := charNe (hmem c (List.mem_cons_self c t)) (by decide)
      simp [pyStartswith, hne]
  have hvar : pyStartswith ('$' :: n) (pys "$") = true := by
    simp [pyStartswith]
  have hgvn := get_var_name_dollar n h
  cases hE : envGet E n with
  | none =>
    simp only [evaluate, hstrip, hsn, evalCore, hcmd, Bool.false_eq_true, if_false,
      hvar, Bool.true_or, eq_self_iff_true, if_true, hgvn, hE, hnot]
  | some v =>
    cases ht : v.truthy <;>
      simp only [evaluate, hstrip, hsn, evalCore, hcmd, Bool.false_eq_true, if_false,
        hvar, Bool.true_or, eq_self_iff_true, if_true, hgvn, hE, ht, hnot,
        Bool.true_eq_false, Bool.not_true, Bool.not_false]

/-! ### Facts about strings that are already stripped, and about the
independence of `evalCore` from the original expression text -/

theorem lstrip_of_stripWs_eq {X : PyStr} (h : stripWs X = X) :
    dropWhileC pyIsSpace X = X := by
  have h1 : (dropWhileC pyIsSpace X).length ≤ X.length := length_dropWhileC_le _ _
  have h2 : (stripWs X).length ≤ (dropWhileC pyIsSpace X).length := by
    unfold stripWs pystrip lstripC rstripC
    calc ((dropWhileC pyIsSpace (dropWhileC pyIsSpace X).reverse).reverse).length
        = (dropWhileC pyIsSpace (dropWhileC pyIsSpace X).reverse).length :=
          List.length_reverse _
      _ ≤ (dropWhileC pyIsSpace X).reverse.length := length_dropWhileC_le _ _
      _ = (dropWhileC pyIsSpace X).length := List.length_reverse _
  rw [h] at h2
  exact dropWhileC_eq_self_of_length _ _ (Nat.le_antisymm h1 h2)

theorem rstrip_of_stripWs_eq {X : PyStr} (h : stripWs X = X) :
    dropWhileC pyIsSpace X.reverse = X.reverse := by
  have hl := lstrip_of_stripWs_eq h
  have hr : rstripC pyIsSpace X = X := by
    have : stripWs X = rstripC pyIsSpace X := by
      unfold stripWs pystrip lstripC
      rw [hl]
    rw [← this, h]
  have h2 : (dropWhileC pyIsSpace X.reverse).reverse = X := hr
  calc dropWhileC pyIsSpace X.reverse
      = ((dropWhileC pyIsSpace X.reverse).reverse).reverse :=
        (List.reverse_reverse _).symm
    _ = X.reverse := by rw [h2]

theorem head_not_of_dropWhileC_eq {p : Char → Bool} {c : Char} {t : PyStr}
    (h : dropWhileC p (c :: t) = c :: t) : p c = false := by
  cases hc : p c
  · rfl
  · exfalso
    rw [show dropWhileC p (c :: t) = dropWhileC p t from by simp [dropWhileC, hc]] at h
    have hle := length_dropWhileC_le p t
    rw [h] at hle
    simp at hle

/-- Prepending `not ` to a stripped nonempty string leaves it stripped. -/
theorem stripWs_not_append {X : PyStr} (h : stripWs X = X) (h0 : X ≠ []) :
    stripWs (pys "not " ++ X) = pys "not " ++ X := by
  obtain ⟨c, t, hrev⟩ : ∃ c t, X.reverse = c :: t := by
    cases hX : X.reverse with
    | nil =>
      exfalso
      apply h0
      have := congrArg List.reverse hX
      simpa using this
    | cons c t => exact ⟨c, t, rfl⟩
  have hc : pyIsSpace c = false := by
    have := rstrip_of_stripWs_eq h
    rw [hrev] at this
    exact head_not_of_dropWhileC_eq this
  show pystrip pyIsSpace (pys "not " ++ X) = pys "not " ++ X
  unfold pystrip lstripC rstripC
  rw [show (pys "not " ++ X : PyStr) = 'n' :: 'o' :: 't' :: ' ' :: X from rfl]
  rw [show dropWhileC pyIsSpace ('n' :: 'o' :: 't' :: ' ' :: X) =
      'n' :: 'o' :: 't' :: ' ' :: X from by
    simp [dropWhileC, show pyIsSpace 'n' = false from by decide]]
  rw [show (('n' :: 'o' :: 't' :: ' ' :: X : PyStr)).reverse =
      X.reverse ++ [' ', 't', 'o', 'n'] from by
    rw [show ('n' :: 'o' :: 't' :: ' ' :: X : PyStr) = ['n', 'o', 't', ' '] ++ X from rfl]
    simp]
  rw [hrev]
  rw [show ((c :: t : PyStr) ++ [' ', 't', 'o', 'n']) = c :: (t ++ [' ', 't', 'o', 'n'])
    from rfl]
  rw [show dropWhileC pyIsSpace (c :: (t ++ [' ', 't', 'o', 'n'])) =
      c :: (t ++ [' ', 't', 'o', 'n']) from by simp [dropWhileC, hc]]
  rw [show (c :: (t ++ [' ', 't', 'o', 'n']) : PyStr) = (c :: t) ++ [' ', 't', 'o', 'n']
    from rfl]
  rw [← hrev]
  rw [show (X.reverse ++ [' ', 't', 'o', 'n'] : PyStr).reverse =
      [' ', 't', 'o', 'n'].reverse ++ X.reverse.reverse from by simp]
  simp

theorem get_var_name_error {s : PyStr} {err : PyError}
    (h : get_var_name s = .error err) : ∃ m, err = .yamlSyntaxError m := by
  unfold get_var_name at h
  split_ifs at h
  exact ⟨_, (Except.error.inj h).symm⟩

/-- `evalCore` uses its `expression` argument only inside the final error
message: two runs differing only there either agree, or both raise a
`YamlSyntaxError`. -/
theorem evalCore_expr_irrel (runner : Runner) (e1 e2 x : PyStr) (k : Env) :
    evalCore runner e1 x k = evalCore runner e2 x k ∨
      (∃ m1 m2, evalCore runner e1 x k = .error (.yamlSyntaxError m1) ∧
        evalCore runner e2 x k = .error (.yamlSyntaxError m2)) := by
  unfold evalCore
  split_ifs with h1 h2 h3
  · left; rfl
  · left; rfl
  · left; rfl
  · right
    exact ⟨_, _, rfl, rfl⟩

/-- Every exception `evalCore` raises is a `YamlSyntaxError`. -/
theorem evalCore_error_yaml (runner : Runner) (e x : PyStr) (k : Env)
    (err : PyError) (h : evalCore runner e x k = .error err) :
    ∃ m, err = .yamlSyntaxError m := by
  unfold evalCore at h
  split_ifs at h with h1 h2 h3
  · cases hr : runner (pySlice2Neg1 x) k <;> rw [hr] at h <;> simp at h
  · cases hg : get_var_name x with
    | ok vn =>
      rw [hg] at h
      cases hE : envGet k vn with
      | none => simp [hE] at h
      | some v => cases ht : v.truthy <;> simp [hE, ht] at h
    | error e1 =>
      rw [hg] at h
      have he := Except.error.inj h
      obtain ⟨m, hm⟩ := get_var_name_error hg
      exact ⟨m, by rw [← he]; exact hm⟩
  · cases hg : get_var_name (x.drop 8) with
    | ok vn =>
      rw [hg] at h
      simp at h
    | error e1 =>
      rw [hg] at h
      have he := Except.error.inj h
      obtain ⟨m, hm⟩ := get_var_name_error hg
      exact ⟨m, by rw [← he]; exact hm⟩
  · exact ⟨_, (Except.error.inj h).symm⟩

/-! ### The claims -/

/-- C1: for every environment `E` and every identifier name `n`,
`evaluate("$" + n, E)` returns `(logical = true, value = E[n])` iff `n` is
a key of `E` and `E[n]` is truthy; in every other case (absent name, or a
falsy bound value) it returns `(false, "")` — never the falsy content. -/
theorem c1_eval_dollar_name (runner : Runner) (E : Env) (n : PyStr)
    (h : goodName n = true) :
    evaluate runner (.str ('$' :: n)) E =
      .ok (match envGet E n with
        | some v => if v.truthy then (true, v) else (false, Value.str [])
        | none => (false, Value.str [])) :=
  eval_dollar runner E n h

/-- Witness for C1 at `n = "foo"`, `E = \x7bfoo: "bar"\x7d`. -/
theorem c1_eval_dollar_name_witness :
    goodName (pys "foo") = true ∧
    evaluate trivialRunner (.str ('$' :: pys "foo"))
        [(pys "foo", Value.str (pys "bar"))] =
      .ok (true, Value.str (pys "bar")) :=
  ⟨by decide,
    c1_eval_dollar_name trivialRunner [(pys "foo", Value.str (pys "bar"))]
      (pys "foo") (by decide)⟩

/-- C2 (code bug): a for-loop header that misses the `in` keyword makes
`regex.match` return `None`, and `parse_for` calls `.groups()` on that
result before any check, so an `AttributeError` escapes — not the
`YamlSyntaxError` naming the header that the claim (and the unreachable
error message in the source) promises. -/
theorem c2_parse_for_missing_in_attr :
    parse_for (pys "for $i $foo") =
      .error (.attributeError (pys "NoneType object has no attribute groups")) := rfl

/-- C4 (code bug): when the inner expression evaluation raises a
`YamlSyntaxError` (here: the non-expression `xx`), the handler in the
loop iterable resolver calls the undefined module name `logger`, so a
`NameError` escapes instead of the unchanged re-raised syntax error. -/
theorem c4_loop_resolver_name_error :
    get_for_control_var_and_eval_expr trivialRunner (pys "for $i in xx") [] =
      .error (.nameError (pys "name logger is not defined")) := rfl

/-- C9 (counterexample): `get_var_name` strips all surrounding brace
layers, not exactly one — `${{i}}` normalizes to `i`, not to `{i}`. -/
theorem c9_get_var_name_counterexample :
    get_var_name (pys "$\x7b\x7bi\x7d\x7d") = .ok (pys "i") ∧
    (pys "i" : PyStr) ≠ pys "\x7bi\x7d" :=
  ⟨rfl, by decide⟩

/-- C9 (amended): Variable Naming strips surrounding whitespace, then ALL
surrounding quote characters (each side independently), then fails with a
SyntaxError-kind error unless the first remaining character is `$`, then
removes that `$` and strips ALL surrounding brace characters — nested
layers are removed, not retained. -/
theorem c9_get_var_name_spec :
    (∀ w1 w2 q1 q2 b1 b2 v : PyStr,
      (∀ c ∈ w1, pyIsSpace c = true) → (∀ c ∈ w2, pyIsSpace c = true) →
      (∀ c ∈ q1, isQuote c = true) → (∀ c ∈ q2, isQuote c = true) →
      (∀ c ∈ b1, isBrace c = true) → (∀ c ∈ b2, isBrace c = true) →
      (∀ c ∈ v, isAlnumU c = true) →
      get_var_name (w1 ++ (q1 ++ ('$' :: (b1 ++ v ++ b2)) ++ q2) ++ w2) = .ok v) ∧
    (∀ s : PyStr,
      pyStartswith (pystrip isQuote (stripWs s)) (pys "$") = false →
      get_var_name s = .error (.yamlSyntaxError
        (pys "Not a proper variable name: " ++ s))) := by
  constructor
  · intro w1 w2 q1 q2 b1 b2 v hw1 hw2 hq1 hq2 hb1 hb2 hv
    have hmidws : ∀ c ∈ (q1 ++ ('$' :: (b1 ++ v ++ b2)) ++ q2 : PyStr),
        pyIsSpace c = false := by
      intro c hc
      rcases List.mem_append.mp hc with hc1 | hc1
      · rcases List.mem_append.mp hc1 with hc2 | hc2
        · exact quote_not_space (hq1 c hc2)
        · rcases List.mem_cons.mp hc2 with hc3 | hc3
          · subst hc3; decide
          · rcases List.mem_append.mp hc3 with hc4 | hc4
            · rcases List.mem_append.mp hc4 with hc5 | hc5
              · exact brace_not_space (hb1 c hc5)
              · exact alnum_not_space (hv c hc5)
            · exact brace_not_space (hb2 c hc4)
      · exact quote_not_space (hq2 c hc1)
    have hmidqu : ∀ c ∈ ('$' :: (b1 ++ v ++ b2) : PyStr), isQuote c = false := by
      intro c hc
      rcases List.mem_cons.mp hc with hc1 | hc1
      · subst hc1; decide
      · rcases List.mem_append.mp hc1 with hc2 | hc2
        · rcases List.mem_append.mp hc2 with hc3 | hc3
          · exact brace_not_quote (hb1 c hc3)
          · exact alnum_not_quote (hv c hc3)
        · exact brace_not_quote (hb2 c hc2)
    unfold get_var_name
    rw [show stripWs (w1 ++ (q1 ++ ('$' :: (b1 ++ v ++ b2)) ++ q2) ++ w2) =
        q1 ++ ('$' :: (b1 ++ v ++ b2)) ++ q2 from
      pystrip_wrap pyIsSpace w1 _ w2 hw1 hw2 hmidws]
    rw [show pystrip isQuote (q1 ++ ('$' :: (b1 ++ v ++ b2)) ++ q2) =
        '$' :: (b1 ++ v ++ b2) from
      pystrip_wrap isQuote q1 _ q2 hq1 hq2 hmidqu]
    rw [if_pos (show pyStartswith ('$' :: (b1 ++ v ++ b2)) (pys "$") = true from by
      simp [pyStartswith])]
    rw [show (('$' :: (b1 ++ v ++ b2) : PyStr)).drop 1 = b1 ++ v ++ b2 from rfl]
    rw [pystrip_wrap isBrace b1 v b2 hb1 hb2
      (fun c hc => alnum_not_brace (hv c hc))]
  · intro s hs
    unfold get_var_name
    rw [if_neg (by simp [hs])]

/-- Witness for C9: two quote layers on the left, one on the right, two
brace layers — all removed. -/
theorem c9_get_var_name_spec_witness :
    get_var_name (pys " \x22\x22$\x7b\x7bi\x7d\x7d\x22") = .ok (pys "i") :=
  c9_get_var_name_spec.1 [' '] [] [dquote, dquote] [dquote]
    [lbrace, lbrace] [rbrace, rbrace] (pys "i")
    (by decide) (by decide) (by decide) (by decide) (by decide) (by decide)
    (by decide)

/-- C10: an assignment target list with more than one comma fails with the
`YamlSyntaxError` before the right-hand side is evaluated: the result is
the same for every runner, and the environment is returned unchanged. -/
theorem c10_assign_two_commas (runner : Runner) (variable_ : PyStr)
    (comm : Value) (k : Env) (h : countChar ',' variable_ > 1) :
    assign_variable runner variable_ comm k =
      (.error (.yamlSyntaxError (pys "Max two variables allowed on left side.")), k) := by
  unfold assign_variable
  rw [if_pos h]

/-- Witness for C10 at the target list `a,b,c`. -/
theorem c10_assign_two_commas_witness :
    countChar ',' (pys "a,b,c") > 1 ∧
    assign_variable trivialRunner (pys "a,b,c") (.str (pys "$z")) [] =
      (.error (.yamlSyntaxError (pys "Max two variables allowed on left side.")), []) :=
  ⟨by decide,
    c10_assign_two_commas trivialRunner (pys "a,b,c") (.str (pys "$z")) []
      (by decide)⟩

/-- C3 (counterexample): on the spec's own example header the expression
text is returned verbatim — `$(ls $foo)` — not the unwrapped `ls $foo`
the claim states. -/
theorem c3_parse_for_counterexample :
    parse_for (pys "for $\x7bi\x7d in $(ls $foo)") =
      .ok ([pys "i"], pys "$(ls $foo)") ∧
    (pys "$(ls $foo)" : PyStr) ≠ pys "ls $foo" :=
  ⟨rfl, by decide⟩

/-- C3 (amended): `parse_for` accepts the whitespace-tolerant headers
`for $v in e`, `for $\x7bv\x7d in e` and `for $k, $v in e` only for
single-character identifiers (the regex matches exactly one non-space
character per name), returning the normalized names and the expression
text verbatim (any `$( )` wrapper included); the expression must be at
least two characters long. -/
theorem c3_parse_for_accepted_forms :
    (∀ (w1 w2 w3 : PyStr) (v : Char) (e : PyStr),
      (∀ c ∈ w1, pyIsSpace c = true) → w1 ≠ [] →
      (∀ c ∈ w2, pyIsSpace c = true) → w2 ≠ [] →
      (∀ c ∈ w3, pyIsSpace c = true) → w3 ≠ [] →
      isAlnumU v = true → goodExpr e = true →
      parse_for (pys "for" ++ w1 ++ ['$', v] ++ w2 ++ pys "in" ++ w3 ++ e) =
        .ok ([[v]], e)) ∧
    (∀ (w1 w2 w3 : PyStr) (v : Char) (e : PyStr),
      (∀ c ∈ w1, pyIsSpace c = true) → w1 ≠ [] →
      (∀ c ∈ w2, pyIsSpace c = true) → w2 ≠ [] →
      (∀ c ∈ w3, pyIsSpace c = true) → w3 ≠ [] →
      isAlnumU v = true → goodExpr e = true →
      parse_for (pys "for" ++ w1 ++ ['$', lbrace, v, rbrace] ++ w2 ++
          pys "in" ++ w3 ++ e) =
        .ok ([[v]], e)) ∧
    (∀ (w1 w0 w2 w3 w4 : PyStr) (v1 v2 : Char) (e : PyStr),
      (∀ c ∈ w1, pyIsSpace c = true) → w1 ≠ [] →
      (∀ c ∈ w0, pyIsSpace c = true) →
      (∀ c ∈ w2, pyIsSpace c = true) → w2 ≠ [] →
      (∀ c ∈ w3, pyIsSpace c = true) → w3 ≠ [] →
      (∀ c ∈ w4, pyIsSpace c = true) → w4 ≠ [] →
      isAlnumU v1 = true → isAlnumU v2 = true → goodExpr e = true →
      parse_for (pys "for" ++ w1 ++ ['$', v1] ++ w0 ++ [','] ++ w2 ++
          ['$', v2] ++ w3 ++ pys "in" ++ w4 ++ e) =
        .ok ([[v1], [v2]], e)) := by
  refine ⟨?_, ?_, ?_⟩
  · intro w1 w2 w3 v e hw1 hw1n hw2 hw2n hw3 hw3n hv he
    have hsh : (pys "for" ++ w1 ++ ['$', v] ++ w2 ++ pys "in" ++ w3 ++ e : PyStr) =
        'f' :: 'o' :: 'r' :: (w1 ++ '$' :: v :: (w2 ++ 'i' :: 'n' :: (w3 ++ e))) := by
      simp only [show (pys "for" : PyStr) = ['f', 'o', 'r'] from rfl,
        show (pys "in" : PyStr) = ['i', 'n'] from rfl,
        List.cons_append, List.nil_append, List.append_assoc]
    rw [hsh]
    simp only [parse_for,
      reMatchFor_plain w1 w2 w3 v e hw1 hw1n hw2 hw2n hw3 hw3n
        (alnum_not_space hv) (charNe hv (by decide)) he,
      get_var_name_tok_plain v hv]
  · intro w1 w2 w3 v e hw1 hw1n hw2 hw2n hw3 hw3n hv he
    have hsh : (pys "for" ++ w1 ++ ['$', lbrace, v, rbrace] ++ w2 ++
          pys "in" ++ w3 ++ e : PyStr) =
        'f' :: 'o' :: 'r' :: (w1 ++ '$' :: lbrace :: v :: rbrace ::
          (w2 ++ 'i' :: 'n' :: (w3 ++ e))) := by
      simp only [show (pys "for" : PyStr) = ['f', 'o', 'r'] from rfl,
        show (pys "in" : PyStr) = ['i', 'n'] from rfl,
        List.cons_append, List.nil_append, List.append_assoc]
    rw [hsh]
    simp only [parse_for,
      reMatchFor_braced w1 w2 w3 v e hw1 hw1n hw2 hw2n hw3 hw3n
        (alnum_not_space hv) he,
      get_var_name_tok_braced v hv]
  · intro w1 w0 w2 w3 w4 v1 v2 e hw1 hw1n hw0 hw2 hw2n hw3 hw3n hw4 hw4n hv1 hv2 he
    have hsh : (pys "for" ++ w1 ++ ['$', v1] ++ w0 ++ [','] ++ w2 ++
          ['$', v2] ++ w3 ++ pys "in" ++ w4 ++ e : PyStr) =
        'f' :: 'o' :: 'r' :: (w1 ++ '$' :: v1 :: (w0 ++ ',' ::
          (w2 ++ '$' :: v2 :: (w3 ++ 'i' :: 'n' :: (w4 ++ e))))) := by
      simp only [show (pys "for" : PyStr) = ['f', 'o', 'r'] from rfl,
        show (pys "in" : PyStr) = ['i', 'n'] from rfl,
        List.cons_append, List.nil_append, List.append_assoc]
    rw [hsh]
    simp only [parse_for,
      reMatchFor_pair w1 w0 w2 w3 w4 v1 v2 e hw1 hw1n hw0 hw2 hw2n hw3 hw3n hw4 hw4n
        (alnum_not_space hv1) (charNe hv1 (by decide))
        (alnum_not_space hv2) (charNe hv2 (by decide)) he,
      get_var_name_tok_plain v1 hv1, get_var_name_tok_plain v2 hv2,
      List.isEmpty_cons, Bool.false_eq_true, if_false]

/-- Witness for C3 at the three docstring headers (with the expression of
the third example kept verbatim). -/
theorem c3_parse_for_accepted_forms_witness :
    parse_for (pys "for $i in $foo") = .ok ([pys "i"], pys "$foo") ∧
    parse_for (pys "for $\x7bi\x7d in $(ls $foo)") =
      .ok ([pys "i"], pys "$(ls $foo)") ∧
    parse_for (pys "for $k, $v in $foo") =
      .ok ([pys "k", pys "v"], pys "$foo") := by
  refine ⟨?_, ?_, ?_⟩
  · exact c3_parse_for_accepted_forms.1 [' '] [' '] [' '] 'i' (pys "$foo")
      (by decide) (by decide) (by decide) (by decide) (by decide) (by decide)
      (by decide) (by decide)
  · exact c3_parse_for_accepted_forms.2.1 [' '] [' '] [' '] 'i' (pys "$(ls $foo)")
      (by decide) (by decide) (by decide) (by decide) (by decide) (by decide)
      (by decide) (by decide)
  · exact c3_parse_for_accepted_forms.2.2 [' '] [] [' '] [' '] [' '] 'k' 'v'
      (pys "$foo") (by decide) (by decide) (by decide) (by decide) (by decide)
      (by decide) (by decide) (by decide) (by decide) (by decide) (by decide)
      (by decide)

/-- C5 (counterexample): `assign("a,b", X, E)` with the spec's bare target
names raises `Not a proper variable name: a` before anything is bound, so
with a logically-true `X` the round trip fails: the environment is
unchanged and `$a` still evaluates falsy. -/
theorem c5_assign_counterexample :
    assign_variable trivialRunner (pys "a,b") (.str (pys "$z"))
        [(pys "z", Value.str (pys "hi"))] =
      (.error (.yamlSyntaxError (pys "Not a proper variable name: a")),
        [(pys "z", Value.str (pys "hi"))]) ∧
    evaluate trivialRunner (.str (pys "$z")) [(pys "z", Value.str (pys "hi"))] =
      .ok (true, Value.str (pys "hi")) ∧
    evaluate trivialRunner (.str (pys "$a")) [(pys "z", Value.str (pys "hi"))] =
      .ok (false, Value.str []) :=
  ⟨rfl, rfl, rfl⟩

/-- C5 (amended): with properly dollar-prefixed targets, after
`assign("$a,$b", X, E)` the name `a` is bound to the logical of `X` and
`b` to its value; `$a` then evaluates with logical equal to the logical of
`X`, and `$b` evaluates to exactly the value of `X` whenever that value is
truthy (a falsy value is reported back as logical false with the empty
string, per the `$name` rule). -/
theorem c5_assign_roundtrip (runner : Runner) (X : Value) (k : Env)
    (b : Bool) (v : Value) (h : evaluate runner X k = .ok (b, v)) :
    assign_variable runner (pys "$a,$b") X k =
      (.ok (), envSet (envSet k (pys "a") (.bool b)) (pys "b") v) ∧
    evaluate runner (.str (pys "$a"))
        (envSet (envSet k (pys "a") (.bool b)) (pys "b") v) =
      .ok (b, if b then Value.bool b else Value.str []) ∧
    evaluate runner (.str (pys "$b"))
        (envSet (envSet k (pys "a") (.bool b)) (pys "b") v) =
      .ok (v.truthy, if v.truthy then v else Value.str []) := by
  refine ⟨?_, ?_, ?_⟩
  · have h1 : countChar ',' (pys "$a,$b") = 1 := rfl
    have h2 : splitChar ',' (pys "$a,$b") = [pys "$a", pys "$b"] := rfl
    have h3 : get_var_name (pys "$a") = .ok (pys "a") := rfl
    have h4 : get_var_name (pys "$b") = .ok (pys "b") := rfl
    simp only [assign_variable, h1, h2, h3, h4, h]
    norm_num
  · rw [show (pys "$a" : PyStr) = '$' :: pys "a" from rfl]
    rw [eval_dollar runner _ (pys "a") (by decide)]
    rw [envGet_envSet_ne _ (pys "b") (pys "a") v (by decide)]
    rw [envGet_envSet_self]
    cases b <;> simp [Value.truthy]
  · rw [show (pys "$b" : PyStr) = '$' :: pys "b" from rfl]
    rw [eval_dollar runner _ (pys "b") (by decide)]
    rw [envGet_envSet_self]
    cases ht : v.truthy <;> simp [ht]

/-- Witness for C5 at `X = "$z"`, `E = \x7bz: "hi"\x7d`. -/
theorem c5_assign_roundtrip_witness :
    assign_variable trivialRunner (pys "$a,$b") (.str (pys "$z"))
        [(pys "z", Value.str (pys "hi"))] =
      (.ok (), [(pys "z", Value.str (pys "hi")), (pys "a", Value.bool true),
        (pys "b", Value.str (pys "hi"))]) ∧
    evaluate trivialRunner (.str (pys "$a"))
        [(pys "z", Value.str (pys "hi")), (pys "a", Value.bool true),
          (pys "b", Value.str (pys "hi"))] =
      .ok (true, Value.bool true) ∧
    evaluate trivialRunner (.str (pys "$b"))
        [(pys "z", Value.str (pys "hi")), (pys "a", Value.bool true),
          (pys "b", Value.str (pys "hi"))] =
      .ok (true, Value.str (pys "hi")) :=
  c5_assign_roundtrip trivialRunner (.str (pys "$z"))
    [(pys "z", Value.str (pys "hi"))] true (Value.str (pys "hi")) rfl

/-- C7: the loop iterable resolver evaluates the header expression,
discards its logical result, and shapes its value by the declared control
variables: two variables demand a dict (else a `YamlSyntaxError` naming
the actual type) iterated in order; one variable splits a textual value on
whitespace and turns any non-textual value into the empty iterable. -/
theorem c7_loop_iterable_shapes (runner : Runner) (ct : PyStr) (k : Env)
    (cv : List PyStr) (ex : PyStr) (b : Bool) (v : Value)
    (h1 : parse_for ct = .ok (cv, ex))
    (h2 : evaluate runner (.str ex) k = .ok (b, v)) :
    get_for_control_var_and_eval_expr runner ct k =
      (if cv.length = 2 then
        match v with
        | .dict xs => .ok (cv, xs.map (fun p => PyItem.kv p.1 p.2))
        | _ => .error (.yamlSyntaxError
            (pys "Cant expand " ++ pyTypeName v ++ pys " to two control variables."))
      else
        match v with
        | .str s => .ok (cv, (pySplitWs s).map PyItem.s)
        | _ => .ok (cv, [])) := by
  simp only [get_for_control_var_and_eval_expr, h1, h2]
  by_cases hlen : cv.length = 2
  · rw [if_pos hlen, if_pos hlen]
    cases v <;> rfl
  · rw [if_neg hlen, if_neg hlen]
    cases v <;> rfl

/-- Witness for C7: one control variable over the textual value `a b`. -/
theorem c7_loop_iterable_shapes_witness :
    get_for_control_var_and_eval_expr trivialRunner (pys "for $i in $w")
        [(pys "w", Value.str (pys "a b"))] =
      .ok ([pys "i"], [PyItem.s (pys "a"), PyItem.s (pys "b")]) :=
  c7_loop_iterable_shapes trivialRunner (pys "for $i in $w")
    [(pys "w", Value.str (pys "a b"))] [pys "i"] (pys "$w") true
    (Value.str (pys "a b")) rfl rfl

/-- C8: with skip true iff the next section exists and is keyed exactly
`else`, the condition resolver returns `(0, skip, if-body)` when the
stripped condition is logically true, `(1, true, else-body)` when it is
false and skip holds, and `(1, false, none)` when it is false with no true
else-section following. -/
theorem c8_condition_resolver {β : Type} (runner : Runner)
    (if_section : PyStr × β) (else_section : Option (PyStr × β)) (k : Env)
    (b : Bool) (v : Value)
    (h : evaluate runner (.str (stripWs (if_section.1.drop 2))) k = .ok (b, v)) :
    get_section_from_condition runner if_section else_section k =
      (if b then .ok (0, skipOf else_section, some if_section.2)
       else if skipOf else_section then
         .ok (1, true, else_section.map Prod.snd)
       else .ok (1, false, none)) := by
  simp only [get_section_from_condition, h]
  cases b with
  | true => simp
  | false =>
    cases hsk : skipOf else_section with
    | false => simp [hsk]
    | true =>
      cases else_section with
      | none => simp [skipOf] at hsk
      | some es => simp [hsk]

/-- Witness for C8: a true condition with a genuine else-section next. -/
theorem c8_condition_resolver_witness :
    get_section_from_condition trivialRunner (pys "if $x", (7 : Nat))
        (some (pys "else", (9 : Nat))) [(pys "x", Value.str (pys "1"))] =
      .ok (0, true, some 7) :=
  c8_condition_resolver trivialRunner (pys "if $x", (7 : Nat))
    (some (pys "else", (9 : Nat))) [(pys "x", Value.str (pys "1"))] true
    (Value.str (pys "1")) rfl

/-- C6 (counterexample): `evaluate("not " + X, E)` is not the inversion of
`evaluate(X, E)` for every `X` — with `X = " $foo"` (leading whitespace)
the plain evaluation succeeds but the `not `-prefixed one raises a
`YamlSyntaxError`, because the space left after stripping the prefix makes
no rule match. -/
theorem c6_not_counterexample :
    evaluate trivialRunner (.str (pys " $foo"))
        [(pys "foo", Value.str (pys "bar"))] =
      .ok (true, Value.str (pys "bar")) ∧
    evaluate trivialRunner (.str (pys "not  $foo"))
        [(pys "foo", Value.str (pys "bar"))] =
      .error (.yamlSyntaxError (pys "Not a valid expression: not  $foo")) :=
  ⟨rfl, rfl⟩

/-- C6 (amended): for an `X` with no surrounding whitespace that does not
itself begin with `not `, `evaluate("not " + X, E)` returns the same value
as `evaluate(X, E)` with the boolean negation of its logical result
whenever the latter returns; when `evaluate(X, E)` raises a
SyntaxError-kind error, so does the prefixed form. Exactly one leading
`not ` is recognized. -/
theorem c6_not_inverts (runner : Runner) (k : Env) (X : PyStr)
    (h1 : stripWs X = X) (h2 : pyStartswith X (pys "not ") = false)
    (h3 : X ≠ []) :
    (∀ b v, evaluate runner (.str X) k = .ok (b, v) →
      evaluate runner (.str (pys "not " ++ X)) k = .ok (!b, v)) ∧
    (∀ err, evaluate runner (.str X) k = .error err →
      ∃ m, evaluate runner (.str (pys "not " ++ X)) k =
        .error (.yamlSyntaxError m)) := by
  have hsw : stripWs (pys "not " ++ X) = pys "not " ++ X := stripWs_not_append h1 h3
  have hflag : invertFlag (pys "not " ++ X) = true := pyStartswith_append_self _ _
  have hsn : stripNot (pys "not " ++ X) = X := by
    simp only [stripNot, hflag, if_true]
    rfl
  have hflagX : invertFlag X = false := h2
  have hsnX : stripNot X = X := by
    simp only [stripNot, hflagX, Bool.false_eq_true, if_false]
  constructor
  · intro b v hbv
    have hcore : evalCore runner X X k = .ok (b, v) := by
      have hbv2 := hbv
      simp only [evaluate, h1, hsnX, hflagX, Bool.false_eq_true, if_false] at hbv2
      cases hc : evalCore runner X X k with
      | ok p =>
        rw [hc] at hbv2
        obtain ⟨s, o⟩ := p
        simpa using hbv2
      | error e => rw [hc] at hbv2; simp at hbv2
    rcases evalCore_expr_irrel runner (pys "not " ++ X) X X k with heq | ⟨m1, m2, ha, hb'⟩
    · simp only [evaluate, hsw, hsn, hflag, heq, hcore, if_true]
    · rw [hcore] at hb'
      simp at hb'
  · intro err herr
    have hcore : ∃ e0, evalCore runner X X k = .error e0 := by
      cases hc : evalCore runner X X k with
      | ok p =>
        exfalso
        have herr2 := herr
        simp only [evaluate, h1, hsnX, hc] at herr2
        obtain ⟨s, o⟩ := p
        simp at herr2
      | error e0 => exact ⟨e0, rfl⟩
    obtain ⟨e0, hc⟩ := hcore
    rcases evalCore_expr_irrel runner (pys "not " ++ X) X X k with heq | ⟨m1, m2, ha, hb'⟩
    · obtain ⟨m, hm⟩ := evalCore_error_yaml runner X X k e0 hc
      refine ⟨m, ?_⟩
      rw [hm] at hc
      rw [hc] at heq
      simp only [evaluate, hsw, hsn, heq]
    · refine ⟨m1, ?_⟩
      simp only [evaluate, hsw, hsn, ha]

/-- Witness for C6 at `X = "$z"`, `E = \x7bz: "hi"\x7d`. -/
theorem c6_not_inverts_witness :
    evaluate trivialRunner (.str (pys "not $z"))
        [(pys "z", Value.str (pys "hi"))] =
      .ok (false, Value.str (pys "hi")) :=
  (c6_not_inverts trivialRunner [(pys "z", Value.str (pys "hi"))] (pys "$z")
      rfl rfl (by decide)).1 true (Value.str (pys "hi")) rfl

end DevAssistant
